import Mathlib

/-!
Verification development for the coco_env repository.

The definitions below are shallow embeddings of the Python sources:
`packet.py` (stimulus-side `Packet`), `coco_env/packet.py` (monitor-side
`Packet`), `coco_env/axis_vip.py` (AXI-Stream driver/monitor),
`coco_env/rv_base.py` (generic ready-valid driver/monitor) and
`scoreboard.py` (`Comparator`).  Python machine integers are modelled as
`Nat` (all values involved are non-negative) except where a signed value
matters, byte masking `& 0xFF` is kept as `&&& 0xFF`, Python lists are
`List Nat`, and calls that raise an exception return `Except PyErr _`.
-/

set_option maxHeartbeats 1000000

/-- Python exception kinds that the embedded code can raise. -/
inductive PyErr where
  | valueError
  | typeError
  | nameError
deriving DecidableEq, Repr

/-- Packet record: the two fields of the Python `Packet` class that carry
the payload, `data` (list of byte values) and `pkt_size` (byte count). -/
structure Packet where
  data : List Nat
  pkt_size : Nat
deriving DecidableEq, Repr

instance : Inhabited Packet := ⟨⟨[], 0⟩⟩

/-- Embedding of `Packet.words_to_bytes` from `src/coco_env/packet.py`
(also duplicated inside `src/coco_env/axis_vip.py`): converts a list of
multi-byte words into a byte list, least-significant byte first within
each word, appending a byte only while fewer than `total_bytes` bytes
have been collected (the Python inner `break` leaves the remaining inner
iterations without effect, which the guard reproduces), and
unconditionally setting `pkt_size := total_bytes`. -/
def words_to_bytes (word_list : List Nat) (total_bytes : Nat) (width : Nat) : Packet :=
  { pkt_size := total_bytes
    data := word_list.foldl (fun byte_list word =>
      (List.range width).foldl (fun a i =>
        if a.length < total_bytes then a ++ [(word >>> (i * 8)) &&& 0xFF] else a) byte_list) [] }

/-- Bytes of one lane word, least-significant byte first, one entry per
byte lane (specification-side reading of the inner loop of
`words_to_bytes`). -/
def wordBytes (word : Nat) (width : Nat) : List Nat :=
  (List.range width).map (fun i => (word >>> (i * 8)) &&& 0xFF)

/-- Concatenation of the per-word byte lists of a word list. -/
def bytesOfWords (width : Nat) : List Nat → List Nat
  | [] => []
  | w :: ws => wordBytes w width ++ bytesOfWords width ws

theorem length_wordBytes (word width : Nat) : (wordBytes word width).length = width := by
  simp [wordBytes]

theorem length_bytesOfWords (width : Nat) (ws : List Nat) :
    (bytesOfWords width ws).length = width * ws.length := by
  induction ws with
  | nil => simp [bytesOfWords]
  | cons w ws ih =>
    simp [bytesOfWords, ih, length_wordBytes, Nat.mul_succ, Nat.add_comm]

theorem take_append_take (t : Nat) (xs ys : List Nat) :
    (xs.take t ++ ys).take t = (xs ++ ys).take t := by
  rcases Nat.le_total xs.length t with hle | hle
  · rw [List.take_of_length_le hle]
  · rw [List.take_append_of_le_length (by simp [List.length_take]; omega),
      List.take_append_of_le_length hle, List.take_take, Nat.min_self]

theorem wtb_inner_eq (word total : Nat) (width : Nat) (acc : List Nat)
    (hacc : acc.length ≤ total) :
    (List.range width).foldl (fun a i =>
        if a.length < total then a ++ [(word >>> (i * 8)) &&& 0xFF] else a) acc
      = (acc ++ wordBytes word width).take total := by
  induction width with
  | zero =>
    simp [wordBytes, List.take_of_length_le, hacc]
  | succ w ih =>
    rw [List.range_succ, List.foldl_append, ih]
    have hwb : wordBytes word (w + 1) = wordBytes word w ++ [(word >>> (w * 8)) &&& 0xFF] := by
      simp [wordBytes, List.range_succ]
    by_cases hlt : acc.length + w < total
    · have htake : (acc ++ wordBytes word w).take total = acc ++ wordBytes word w := by
        apply List.take_of_length_le
        simp [length_wordBytes]; omega
      simp only [List.foldl_cons, List.foldl_nil, htake]
      rw [if_pos (by simp [length_wordBytes]; omega)]
      rw [hwb, List.take_of_length_le (by simp [length_wordBytes]; omega)]
      simp
    · have hlen2 : (List.take total (acc ++ wordBytes word w)).length = total := by
        rw [List.length_take]; simp [length_wordBytes]; omega
      have h2 : total ≤ (acc ++ wordBytes word w).length := by
        simp [length_wordBytes]; omega
      simp only [List.foldl_cons, List.foldl_nil]
      rw [if_neg (by rw [hlen2]; omega)]
      rw [hwb, ← List.append_assoc,
        @List.take_append_of_le_length _ (acc ++ wordBytes word w)
          [word >>> (w * 8) &&& 0xFF] total h2]

theorem wtb_outer_eq (total width : Nat) (ws : List Nat) (acc : List Nat)
    (hacc : acc.length ≤ total) :
    ws.foldl (fun byte_list word =>
      (List.range width).foldl (fun a i =>
        if a.length < total then a ++ [(word >>> (i * 8)) &&& 0xFF] else a) byte_list) acc
      = (acc ++ bytesOfWords width ws).take total := by
  induction ws generalizing acc with
  | nil => simp [bytesOfWords, List.take_of_length_le, hacc]
  | cons w ws ih =>
    simp only [List.foldl_cons]
    rw [wtb_inner_eq w total width acc hacc]
    rw [ih _ (by simp [List.length_take])]
    rw [take_append_take, List.append_assoc]
    simp [bytesOfWords]

/-- Data field of `words_to_bytes`: the first `total_bytes` bytes of the
concatenated little-endian byte expansion of the words. -/
theorem words_to_bytes_data (word_list : List Nat) (total_bytes width : Nat) :
    (words_to_bytes word_list total_bytes width).data
      = (bytesOfWords width word_list).take total_bytes := by
  have := wtb_outer_eq total_bytes width word_list [] (by simp)
  simpa [words_to_bytes] using this

/-- C10: `words_to_bytes` unconditionally records the requested
`total_bytes` as `pkt_size` while its data list holds only
`min total_bytes (width * len word_list)` bytes, each taken
least-significant-byte-first from the words; when the request exceeds the
bytes available in the word list the packet ends up with `pkt_size`
strictly greater than the length of its data, breaking the
size-equals-length invariant. -/
theorem words_to_bytes_truncation (word_list : List Nat) (total_bytes width : Nat) :
    (words_to_bytes word_list total_bytes width).pkt_size = total_bytes ∧
    (words_to_bytes word_list total_bytes width).data
      = (bytesOfWords width word_list).take total_bytes ∧
    (words_to_bytes word_list total_bytes width).data.length
      = min total_bytes (width * word_list.length) ∧
    (width * word_list.length < total_bytes →
      (words_to_bytes word_list total_bytes width).data.length
        < (words_to_bytes word_list total_bytes width).pkt_size) := by
  have hdata := words_to_bytes_data word_list total_bytes width
  have hlen : (words_to_bytes word_list total_bytes width).data.length
      = min total_bytes (width * word_list.length) := by
    rw [hdata, List.length_take, length_bytesOfWords]
  exact ⟨rfl, hdata, hlen, fun hgt => by rw [hlen]; simp [words_to_bytes]; omega⟩

theorem words_to_bytes_truncation_witness :
    2 * [(513 : Nat)].length < 5 ∧
    (words_to_bytes [513] 5 2).data.length < (words_to_bytes [513] 5 2).pkt_size :=
  ⟨by decide, (words_to_bytes_truncation [513] 5 2).2.2.2 (by decide)⟩

/-- Ceiling division: the value of Python `math.ceil(pkt_size / width)`
for non-negative `pkt_size` and positive `width`. -/
def ceil_div (a b : Nat) : Nat := (a + b - 1) / b

/-- Embedding of the beat-count computation of `AxisDriver.send_pkt`
(`src/coco_env/axis_vip.py`, `pkt_len_in_words`) and equally of
`ReadyValidDriverBase.send_pkt` (`src/coco_env/rv_base.py`, `num_words`):
`math.ceil(pkt.pkt_size / self.width)`, forced to 1 when it is 0
(empty-packet edge case kept by both send loops). -/
def pkt_len_in_words (pkt_size width : Nat) : Nat :=
  let n := ceil_div pkt_size width
  if n = 0 then 1 else n

/-- C2: the send loop iterates over `ceil(pkt_size / width)` beats for a
non-empty packet (characterised both by equality with ceiling division
and by the defining inequalities of the ceiling), and over exactly one
beat for an empty packet. -/
theorem send_loop_beat_count (pkt_size width : Nat) (hw : 0 < width) :
    (pkt_size = 0 → pkt_len_in_words pkt_size width = 1) ∧
    (0 < pkt_size →
      pkt_len_in_words pkt_size width = ceil_div pkt_size width ∧
      width * (pkt_len_in_words pkt_size width - 1) < pkt_size ∧
      pkt_size ≤ width * pkt_len_in_words pkt_size width) := by
  constructor
  · intro h
    subst h
    have h0 : (width - 1) / width = 0 := Nat.div_eq_of_lt (by omega)
    simp [pkt_len_in_words, ceil_div, h0]
  · intro hp
    have hn1 : 1 ≤ (pkt_size + width - 1) / width :=
      (Nat.le_div_iff_mul_le hw).mpr (by omega)
    have hpl : pkt_len_in_words pkt_size width = (pkt_size + width - 1) / width := by
      simp only [pkt_len_in_words, ceil_div]
      rw [if_neg (by omega)]
    have hdm := Nat.div_add_mod (pkt_size + width - 1) width
    have hmlt : (pkt_size + width - 1) % width < width := Nat.mod_lt _ hw
    have hms : width * ((pkt_size + width - 1) / width - 1) + width
        = width * ((pkt_size + width - 1) / width) := by
      have hsub : (pkt_size + width - 1) / width - 1 + 1
          = (pkt_size + width - 1) / width := by omega
      conv_rhs => rw [← hsub]
      rw [Nat.mul_succ]
    rw [hpl]
    exact ⟨rfl, by omega, by omega⟩

theorem send_loop_beat_count_witness :
    pkt_len_in_words 0 4 = 1 ∧ pkt_len_in_words 10 4 = ceil_div 10 4 :=
  ⟨(send_loop_beat_count 0 4 (by decide)).1 rfl,
   ((send_loop_beat_count 10 4 (by decide)).2 (by decide)).1⟩

/-- Result of one run of the driver send loop: the value of the tick
counter when the loop exits, and the list of tick indices on which a
handshake completed. -/
structure LoopResult where
  ticks : Nat
  handshakes : List Nat
deriving DecidableEq, Repr

/-- Embedding of the while loop of `AxisDriver.send_pkt`
(`src/coco_env/axis_vip.py`) and `ReadyValidDriverBase.send_pkt`
(`src/coco_env/rv_base.py`) for `FlowControlMode.ALWAYS_ON`: tvalid is
driven to 1 before the loop and `drive_tvalid`/`drive_valid` keeps it 1
on every beat, so a transaction completes on a tick exactly when the
bound ready line reads 1 after that tick's rising edge (`ready tick`);
`word_num` advances only on a completed handshake.  Each recursive call
models one `await RisingEdge(clk)`.  `fuel` bounds the modelled ticks
(the Python loop is unbounded); `none` means the loop was still running
when the fuel ran out. -/
def send_loop (ready : Nat → Bool) (num_words : Nat) :
    Nat → Nat → Nat → List Nat → Option LoopResult
  | 0, _, _, _ => none
  | fuel + 1, word_num, tick, hs =>
    if word_num < num_words then
      let tnx_completed := ready tick
      send_loop ready num_words fuel
        (if tnx_completed then word_num + 1 else word_num)
        (tick + 1)
        (if tnx_completed then hs ++ [tick] else hs)
    else some ⟨tick, hs⟩

/-- Embedding of `send_pkt` under `ALWAYS_ON` flow control: `delay` ticks
of initial idle (the tick counter starts at `delay`), then the send loop
over `pkt_len_in_words pkt_size width` beats. -/
def send_pkt_sim (ready : Nat → Bool) (delay pkt_size width fuel : Nat) : Option LoopResult :=
  send_loop ready (pkt_len_in_words pkt_size width) fuel 0 delay []

theorem send_loop_always_ready (ready : Nat → Bool) (hr : ∀ t, ready t = true)
    (num_words : Nat) :
    ∀ k, k ≤ num_words → ∀ tick hs,
      send_loop ready num_words (k + 1) (num_words - k) tick hs
        = some ⟨tick + k, hs ++ (List.range k).map (fun i => tick + i)⟩ := by
  intro k
  induction k with
  | zero =>
    intro _ tick hs
    rw [send_loop, if_neg (by omega)]
    simp
  | succ k ih =>
    intro hk tick hs
    rw [send_loop, if_pos (by omega)]
    simp only [hr, if_true]
    have harith : num_words - (k + 1) + 1 = num_words - k := by omega
    rw [harith, ih (by omega) (tick + 1) (hs ++ [tick])]
    have hfun : (fun i => tick + 1 + i) = (fun i => tick + (i + 1)) :=
      funext fun i => by omega
    have happ : (hs ++ [tick]) ++ (List.range k).map (fun i => tick + 1 + i)
        = hs ++ (List.range (k + 1)).map (fun i => tick + i) := by
      rw [List.append_assoc, List.range_succ_eq_map, List.map_cons, List.map_map, hfun]
      simp [Function.comp, Nat.succ_eq_add_one]
    rw [happ]
    have htick : tick + 1 + k = tick + (k + 1) := by omega
    rw [htick]

/-- C3: under `ALWAYS_ON` flow control with the ready line asserted on
every tick, `send_pkt` for a packet with initial delay `d` and
`N = pkt_len_in_words pkt_size width` beats exits its loop with the tick
counter at `d + N` (exactly `d + N` awaited rising edges in total), and
the completed handshakes are exactly the `N` consecutive ticks
`d, d+1, ..., d+N-1` that follow the initial delay. -/
theorem send_pkt_always_on_ticks (ready : Nat → Bool) (delay pkt_size width : Nat)
    (hr : ∀ t, ready t = true) :
    send_pkt_sim ready delay pkt_size width (pkt_len_in_words pkt_size width + 1)
      = some ⟨delay + pkt_len_in_words pkt_size width,
          (List.range (pkt_len_in_words pkt_size width)).map (fun i => delay + i)⟩ := by
  have h := send_loop_always_ready ready hr (pkt_len_in_words pkt_size width)
    (pkt_len_in_words pkt_size width) (Nat.le_refl _) delay []
  simpa [send_pkt_sim, Nat.sub_self] using h

theorem send_pkt_always_on_ticks_witness :
    send_pkt_sim (fun _ => true) 2 10 4 (pkt_len_in_words 10 4 + 1) = some ⟨5, [2, 3, 4]⟩ :=
  (send_pkt_always_on_ticks (fun _ => true) 2 10 4 (fun _ => rfl)).trans (by decide)

/-- One sampled beat, as the protocol binding hands it to the generic
monitor loop: the masked data word that gets appended to the raw buffer,
the number of valid bytes it contributes (the tkeep popcount in the
AXI-Stream binding), and whether the end-of-packet marker was set. -/
structure Beat where
  word : Nat
  valid_bytes : Nat
  is_last : Bool
deriving DecidableEq, Repr

/-- Per-packet accumulation state of `AxisMonitor` /
`ReadyValidMonitorBase`: raw word buffer, running byte counter, packet
counter, and the observation list `aport`. -/
structure MonState where
  data : List Nat
  pkt_size : Nat
  pkt_cntr : Nat
  aport : List Packet
deriving DecidableEq, Repr

/-- Embedding of `AxisMonitor.write_aport` (`src/coco_env/axis_vip.py`):
build a packet from the accumulated words and running size via
`words_to_bytes`, reset the buffer and the size counter, append the
packet to `aport`, and increment the packet counter
(`ReadyValidMonitorBase.write_aport` in `rv_base.py` performs the same
steps with the packet built by the `build_packet` hook). -/
def write_aport (width : Nat) (s : MonState) : MonState :=
  { data := []
    pkt_size := 0
    pkt_cntr := s.pkt_cntr + 1
    aport := s.aport ++ [words_to_bytes s.data s.pkt_size width] }

/-- Embedding of one completed-handshake iteration of the monitor loop
(`AxisMonitor.mon_if` / `ReadyValidMonitorBase.mon_if`): append the
sampled data word, add the valid-byte count to the running size, and
close the packet via `write_aport` when the end-of-packet marker is
set. -/
def mon_step (width : Nat) (s : MonState) (b : Beat) : MonState :=
  let s2 : MonState :=
    { s with data := s.data ++ [b.word], pkt_size := s.pkt_size + b.valid_bytes }
  if b.is_last then write_aport width s2 else s2

theorem mon_aport_monotone (width : Nat) (s : MonState) (bs : List Beat) :
    ∃ rest, (bs.foldl (mon_step width) s).aport = s.aport ++ rest := by
  induction bs generalizing s with
  | nil => exact ⟨[], by simp⟩
  | cons b bs ih =>
    obtain ⟨rest, hrest⟩ := ih (mon_step width s b)
    rw [List.foldl_cons]
    by_cases hl : b.is_last = true
    · refine ⟨words_to_bytes (s.data ++ [b.word]) (s.pkt_size + b.valid_bytes) width :: rest, ?_⟩
      rw [hrest]
      simp [mon_step, write_aport, hl]
    · refine ⟨rest, ?_⟩
      rw [hrest]
      simp [mon_step, hl]

/-- C5: processing an end-of-packet beat appends the finished packet
(built from exactly the bytes accumulated up to and including that beat)
at the end of `aport`, increments the packet counter, and clears the raw
buffer and the running size counter; any sequence of later beats only
extends `aport` past the already-recorded packets.  Hence no byte sampled
after an end-of-packet beat is attributed to the packet that ended,
packets sit in `aport` in the order their last beat completed, and the
buffer is empty when the first beat of the next packet is sampled. -/
theorem monitor_boundary_isolation (width : Nat) (s : MonState) (b : Beat) (bs : List Beat)
    (hl : b.is_last = true) :
    (mon_step width s b).data = [] ∧
    (mon_step width s b).pkt_size = 0 ∧
    (mon_step width s b).pkt_cntr = s.pkt_cntr + 1 ∧
    (mon_step width s b).aport
      = s.aport ++ [words_to_bytes (s.data ++ [b.word]) (s.pkt_size + b.valid_bytes) width] ∧
    (∃ rest, (bs.foldl (mon_step width) (mon_step width s b)).aport
        = (mon_step width s b).aport ++ rest) := by
  refine ⟨?_, ?_, ?_, ?_, mon_aport_monotone width _ bs⟩ <;>
    simp [mon_step, write_aport, hl]

theorem monitor_boundary_isolation_witness :
    (mon_step 2 ⟨[5], 1, 0, []⟩ ⟨7, 1, true⟩).data = [] ∧
    (mon_step 2 ⟨[5], 1, 0, []⟩ ⟨7, 1, true⟩).pkt_size = 0 ∧
    (mon_step 2 ⟨[5], 1, 0, []⟩ ⟨7, 1, true⟩).pkt_cntr = 0 + 1 ∧
    (mon_step 2 ⟨[5], 1, 0, []⟩ ⟨7, 1, true⟩).aport
      = [] ++ [words_to_bytes ([5] ++ [7]) (1 + 1) 2] ∧
    (∃ rest, (([⟨9, 1, false⟩] : List Beat).foldl (mon_step 2)
          (mon_step 2 ⟨[5], 1, 0, []⟩ ⟨7, 1, true⟩)).aport
        = (mon_step 2 ⟨[5], 1, 0, []⟩ ⟨7, 1, true⟩).aport ++ rest) :=
  monitor_boundary_isolation 2 ⟨[5], 1, 0, []⟩ ⟨7, 1, true⟩ [⟨9, 1, false⟩] rfl

/-- Embedding of `Packet.compare` from `src/packet.py`: the method
returns the truthy value 1 when `pkt_size` differs or the `data` lists
differ, and falls through (returning the falsy None) when they match;
`self` is the observed packet, `comp_pkt` the predicted one.  Modelled as
the Bool that is true exactly when the method returns 1. -/
def pkt_compare (self comp_pkt : Packet) : Bool :=
  self.pkt_size != comp_pkt.pkt_size || self.data != comp_pkt.data

/-- Embedding of `Comparator.compare` from `src/scoreboard.py`: the
result is true exactly when no `assert False` fires, i.e. the predicted
and observed lists have the same length and the indexed loop finds no
`Packet.compare` mismatch. -/
def comparator_compare (port_prd port_out : List Packet) : Bool :=
  if port_prd.length != port_out.length then false
  else (List.range port_prd.length).all
    (fun indx => !(pkt_compare (port_out.getD indx default) (port_prd.getD indx default)))

/-- C6: `Comparator.compare` succeeds if and only if the predicted and
observed streams have equal length and every positional pair of packets
agrees on `pkt_size` and on the data byte sequence; on any length or
content mismatch it fails. -/
theorem comparator_compare_iff (port_prd port_out : List Packet) :
    comparator_compare port_prd port_out = true ↔
      (port_prd.length = port_out.length ∧
        ∀ indx < port_prd.length,
          (port_out.getD indx default).pkt_size = (port_prd.getD indx default).pkt_size ∧
          (port_out.getD indx default).data = (port_prd.getD indx default).data) := by
  unfold comparator_compare pkt_compare
  by_cases hlen : port_prd.length = port_out.length
  · rw [if_neg (by simp [hlen])]
    simp [List.all_eq_true, List.mem_range, hlen]
  · rw [if_pos (by simp [hlen])]
    simp [hlen]

theorem comparator_compare_iff_witness :
    comparator_compare [⟨[1, 2], 2⟩] [⟨[1, 2], 2⟩] = true :=
  (comparator_compare_iff [⟨[1, 2], 2⟩] [⟨[1, 2], 2⟩]).mpr (by decide)

/-- Embedding of the hash-table construction in
`Comparator.compare_out_of_order` (`src/scoreboard.py`): every predicted
packet is inserted keyed by the hash of its data tuple, a later insert
with the same key overriding an earlier one (Python dict semantics,
reproduced by front insertion with first-match lookup).  The Python
`hash` built-in is abstracted as the parameter `h`. -/
def prd_hash_tbl (h : List Nat → Nat) (port_prd : List Packet) : List (Nat × Packet) :=
  port_prd.foldl (fun tbl pkt => (h pkt.data, pkt) :: tbl) []

/-- Embedding of `Comparator.compare_out_of_order`: true exactly when no
`assert False` fires, i.e. every observed packet finds a predicted packet
under its content hash and `Packet.compare` against that packet reports
no mismatch. -/
def compare_out_of_order (h : List Nat → Nat) (port_prd port_out : List Packet) : Bool :=
  port_out.all (fun pkt =>
    match (prd_hash_tbl h port_prd).lookup (h pkt.data) with
    | none => false
    | some prd_pkt => !(pkt_compare pkt prd_pkt))

theorem foldl_cons_rev (f : Packet → Nat × Packet) (l : List Packet) :
    ∀ acc : List (Nat × Packet),
      l.foldl (fun t p => f p :: t) acc = (l.map f).reverse ++ acc := by
  induction l with
  | nil => intro acc; simp
  | cons x xs ih =>
    intro acc
    simp [List.foldl_cons, ih]

theorem mem_prd_hash_tbl {h : List Nat → Nat} {port_prd : List Packet} {k : Nat}
    {v : Packet} :
    (k, v) ∈ prd_hash_tbl h port_prd ↔ v ∈ port_prd ∧ h v.data = k := by
  rw [prd_hash_tbl, foldl_cons_rev]
  rw [List.append_nil, List.mem_reverse, List.mem_map]
  constructor
  · rintro ⟨p, hp, heq⟩
    rw [Prod.mk.injEq] at heq
    obtain ⟨hk, hv⟩ := heq
    subst hv
    exact ⟨hp, hk⟩
  · rintro ⟨hv, rfl⟩
    exact ⟨v, hv, rfl⟩

theorem lookup_mem {k : Nat} {v : Packet} :
    ∀ {l : List (Nat × Packet)}, l.lookup k = some v → (k, v) ∈ l := by
  intro l
  induction l with
  | nil => intro hsome; simp [List.lookup] at hsome
  | cons kv l ih =>
    intro hsome
    rcases kv with ⟨k1, b⟩
    rw [List.lookup_cons] at hsome
    cases hbeq : (k == k1) with
    | true =>
      rw [hbeq] at hsome
      change some b = some v at hsome
      obtain rfl : b = v := Option.some.inj hsome
      have hkk : k = k1 := eq_of_beq hbeq
      subst hkk
      exact List.mem_cons_self _ _
    | false =>
      rw [hbeq] at hsome
      change List.lookup k l = some v at hsome
      exact List.mem_cons_of_mem _ (ih hsome)

theorem lookup_some_of_mem_key {k : Nat} :
    ∀ {l : List (Nat × Packet)}, (∃ p, (k, p) ∈ l) → ∃ v, l.lookup k = some v := by
  intro l
  induction l with
  | nil =>
    rintro ⟨p, hp⟩
    simp at hp
  | cons kv l ih =>
    rintro ⟨p, hp⟩
    rcases kv with ⟨k1, b⟩
    rw [List.lookup_cons]
    cases hbeq : (k == k1) with
    | true => exact ⟨b, rfl⟩
    | false =>
      rcases List.mem_cons.mp hp with heq | hmem
      · rw [Prod.mk.injEq] at heq
        have : (k == k1) = true := beq_iff_eq.mpr heq.1
        rw [hbeq] at this
        exact absurd this (by simp)
      · obtain ⟨v, hv⟩ := ih ⟨p, hmem⟩
        exact ⟨v, hv⟩

theorem pairwise_data_eq {l : List Packet}
    (hpw : l.Pairwise (fun a b => a.data ≠ b.data)) :
    ∀ a ∈ l, ∀ b ∈ l, a.data = b.data → a = b := by
  induction l with
  | nil =>
    intro a ha
    simp at ha
  | cons x xs ih =>
    rw [List.pairwise_cons] at hpw
    intro a ha b hb heq
    rcases List.mem_cons.mp ha with rfl | ha2 <;> rcases List.mem_cons.mp hb with rfl | hb2
    · rfl
    · exact absurd heq (hpw.1 b hb2)
    · exact absurd heq.symm (hpw.1 a ha2)
    · exact ih hpw.2 a ha2 b hb2 heq

/-- C7: `compare_out_of_order` — with the Python content hash abstracted
as a parameter `h` assumed collision-free on the predicted data
sequences — succeeds whenever the observed stream is a permutation of a
predicted stream whose byte sequences are pairwise distinct; and it
fails (missing prediction) whenever some observed packet's content hash
matches no predicted packet. -/
theorem compare_out_of_order_spec (h : List Nat → Nat) (port_prd port_out : List Packet) :
    (List.Perm port_out port_prd →
      port_prd.Pairwise (fun a b => a.data ≠ b.data) →
      (∀ p ∈ port_prd, ∀ q ∈ port_prd, h p.data = h q.data → p.data = q.data) →
      compare_out_of_order h port_prd port_out = true) ∧
    (∀ pkt ∈ port_out, (∀ q ∈ port_prd, h q.data ≠ h pkt.data) →
      compare_out_of_order h port_prd port_out = false) := by
  constructor
  · intro hperm hpw hinj
    rw [compare_out_of_order, List.all_eq_true]
    intro pkt hmem
    have hmemprd : pkt ∈ port_prd := hperm.mem_iff.mp hmem
    have htbl : ((h pkt.data : Nat), pkt) ∈ prd_hash_tbl h port_prd :=
      mem_prd_hash_tbl.mpr ⟨hmemprd, rfl⟩
    obtain ⟨v, hv⟩ := lookup_some_of_mem_key ⟨pkt, htbl⟩
    obtain ⟨hvmem, hvkey⟩ := mem_prd_hash_tbl.mp (lookup_mem hv)
    have hvdata : v.data = pkt.data := hinj v hvmem pkt hmemprd hvkey
    have hveq : v = pkt := pairwise_data_eq hpw v hvmem pkt hmemprd hvdata
    subst hveq
    simp [hv, pkt_compare]
  · intro pkt hmem hnone
    have hlook : (prd_hash_tbl h port_prd).lookup (h pkt.data) = none := by
      cases hcase : (prd_hash_tbl h port_prd).lookup (h pkt.data) with
      | none => rfl
      | some v =>
        obtain ⟨hvmem, hvkey⟩ := mem_prd_hash_tbl.mp (lookup_mem hcase)
        exact absurd hvkey (hnone v hvmem)
    rw [compare_out_of_order, List.all_eq_false]
    exact ⟨pkt, hmem, by simp [hlook]⟩

/-- Stand-in content hash used by the witness: collision-free on the
concrete one-byte data sequences involved. -/
def hash0 : List Nat → Nat := fun data => data.headD 0

theorem compare_out_of_order_spec_witness :
    compare_out_of_order hash0 [⟨[1], 1⟩, ⟨[2], 1⟩] [⟨[2], 1⟩, ⟨[1], 1⟩] = true ∧
    compare_out_of_order hash0 [⟨[1], 1⟩] [⟨[3], 1⟩] = false :=
  ⟨(compare_out_of_order_spec hash0 [⟨[1], 1⟩, ⟨[2], 1⟩] [⟨[2], 1⟩, ⟨[1], 1⟩]).1
      (by decide) (by decide) (by decide),
   (compare_out_of_order_spec hash0 [⟨[1], 1⟩] [⟨[3], 1⟩]).2 ⟨[3], 1⟩ (by decide) (by decide)⟩

/-- Embedding of `reverse_bits` from `src/coco_env/axis_vip.py`: reverses
the bits of `value` within `width` bit positions (Python truthiness of
`(value >> i) & 1` is `!= 0`). -/
def reverse_bits (value width : Nat) : Nat :=
  (List.range width).foldl
    (fun result i =>
      if (value >>> i) &&& 1 != 0 then result ||| (1 <<< (width - 1 - i)) else result) 0

/-- Number of set bits: embedding of Python `bin(x).count('1')` used by
`AxisMonitor.mon_tkeep` to accumulate the packet size. -/
def popcount : Nat → Nat
  | 0 => 0
  | n + 1 => (n + 1) % 2 + popcount ((n + 1) / 2)
decreasing_by exact Nat.div_lt_self (Nat.succ_pos n) (by omega)

/-- Embedding of `AxisKeepType` from `src/coco_env/axis_vip.py`. -/
inductive AxisKeepType where
  | packed
  | chisel_vec
  | ffs
deriving DecidableEq, Repr

/-- Embedding of `AxisDriver.drive_tkeep` (`src/coco_env/axis_vip.py`):
the value driven onto the tkeep lines for one beat.  On the final beat of
a packet with a partial last word (`pkt_size % width != 0`) the mask
position is that remainder, otherwise the full width; the `FFS` encoding
drives a one-hot marker, every other encoding the prefix mask
`(1 << pos) - 1`; under the reversed byte-order convention
(`pkt0_word0 == 0`) the mask is bit-reversed within `width`. -/
def drive_tkeep_value (width pkt_size : Nat) (last_word : Bool)
    (tkeep_type : AxisKeepType) (pkt0_word0 : Nat) : Nat :=
  let tkeep_msb_pos :=
    if last_word && (pkt_size % width != 0) then pkt_size % width else width
  let tkeep :=
    match tkeep_type with
    | AxisKeepType.ffs => 1 <<< (tkeep_msb_pos - 1)
    | _ => (1 <<< tkeep_msb_pos) - 1
  if pkt0_word0 == 0 then reverse_bits tkeep width else tkeep

/-- Embedding of `AxisMonitor.mon_tkeep` (`src/coco_env/axis_vip.py`) for
a `PACKED` tkeep signal: the raw mask is the sampled signal value, the
running `pkt_size` grows by its popcount, and the returned data mask
expands each set keep bit to a full byte of ones, bit-reversed over
`width * 8` bits.  Result: `(valid-byte contribution, data mask)`. -/
def mon_tkeep (width : Nat) (tkeep_sig : Nat) : Nat × Nat :=
  let tkeep_val := tkeep_sig
  let full_mask := (List.range width).foldl
    (fun m i => if (tkeep_val >>> i) &&& 1 != 0 then m ||| (0xFF <<< (i * 8)) else m) 0
  (popcount tkeep_val, reverse_bits full_mask (width * 8))

theorem cond_eq_testBit (x i : Nat) : ((x >>> i) &&& 1 != 0) = x.testBit i := by
  unfold Nat.testBit
  rw [Nat.and_comm]

theorem testBit_foldl_or (value : Nat) (pos : Nat → Nat) (l : List Nat) :
    ∀ (acc j : Nat),
      ((l.foldl (fun r i =>
          if (value >>> i) &&& 1 != 0 then r ||| (1 <<< pos i) else r) acc).testBit j)
        = (acc.testBit j || l.any (fun i => value.testBit i && decide (pos i = j))) := by
  induction l with
  | nil => intro acc j; simp
  | cons x xs ih =>
    intro acc j
    rw [List.foldl_cons]
    rw [cond_eq_testBit]
    by_cases hc : value.testBit x
    · rw [if_pos hc, ih]
      simp [hc, Nat.testBit_or, Nat.one_shiftLeft, Nat.testBit_two_pow, Bool.or_assoc]
    · rw [if_neg (by simp [hc]), ih]
      simp [hc]

theorem testBit_reverse_bits (value width j : Nat) :
    (reverse_bits value width).testBit j
      = (List.range width).any (fun i => value.testBit i && decide (width - 1 - i = j)) := by
  rw [reverse_bits, testBit_foldl_or]
  simp

theorem reverse_bits_prefix_mask (r width : Nat) (hrw : r ≤ width) :
    reverse_bits ((1 <<< r) - 1) width = ((1 <<< r) - 1) <<< (width - r) := by
  apply Nat.eq_of_testBit_eq
  intro j
  rw [testBit_reverse_bits, Nat.one_shiftLeft, Nat.testBit_shiftLeft,
    Nat.testBit_two_pow_sub_one]
  rcases Nat.lt_or_ge j width with hj | hj
  · by_cases hin : width - r ≤ j ∧ j < width
    · have hex : (List.range width).any
          (fun i => (2 ^ r - 1).testBit i && decide (width - 1 - i = j)) = true := by
        rw [List.any_eq_true]
        refine ⟨width - 1 - j, ?_, ?_⟩
        · rw [List.mem_range]; omega
        · rw [Nat.testBit_two_pow_sub_one]
          simp only [Bool.and_eq_true, decide_eq_true_eq]
          omega
      rw [hex]
      have h1 : j ≥ width - r := hin.1
      have h2 : j - (width - r) < r := by omega
      simp [h1, h2]
    · have hex : (List.range width).any
          (fun i => (2 ^ r - 1).testBit i && decide (width - 1 - i = j)) = false := by
        rw [List.any_eq_false]
        intro i hi
        rw [List.mem_range] at hi
        rw [Nat.testBit_two_pow_sub_one]
        simp only [Bool.and_eq_true, decide_eq_true_eq, not_and]
        intro hir
        omega
      rw [hex]
      rcases Nat.lt_or_ge j (width - r) with hlt | hge
      · simp [Nat.not_le.mpr hlt]
      · have : ¬ j - (width - r) < r := by omega
        simp [this]
  · have hex : (List.range width).any
        (fun i => (2 ^ r - 1).testBit i && decide (width - 1 - i = j)) = false := by
      rw [List.any_eq_false]
      intro i hi
      rw [List.mem_range] at hi
      simp only [Bool.and_eq_true, decide_eq_true_eq, not_and]
      intro _
      omega
    rw [hex]
    have : ¬ j - (width - r) < r := by omega
    simp [this]

theorem popcount_two_mul (m : Nat) : popcount (2 * m) = popcount m := by
  cases m with
  | zero => rfl
  | succ m =>
    have h1 : 2 * (m + 1) = (2 * m + 1) + 1 := by omega
    rw [h1, popcount]
    have hm : (2 * m + 1 + 1) % 2 = 0 := by omega
    have hd : (2 * m + 1 + 1) / 2 = m + 1 := by omega
    rw [hm, hd]
    omega

theorem popcount_two_mul_add_one (m : Nat) : popcount (2 * m + 1) = popcount m + 1 := by
  rw [popcount]
  have hm : (2 * m + 1) % 2 = 1 := by omega
  have hd : (2 * m + 1) / 2 = m := by omega
  rw [hm, hd]
  omega

theorem popcount_two_pow_sub_one (r : Nat) : popcount (2 ^ r - 1) = r := by
  induction r with
  | zero =>
    have h0 : (2 : Nat) ^ 0 - 1 = 0 := rfl
    rw [h0, popcount]
  | succ r ih =>
    have h1 : 1 ≤ 2 ^ r := Nat.one_le_two_pow
    have h2 : 2 ^ (r + 1) - 1 = 2 * (2 ^ r - 1) + 1 := by
      rw [Nat.pow_succ]; omega
    rw [h2, popcount_two_mul_add_one, ih]

theorem popcount_shiftLeft (x k : Nat) : popcount (x <<< k) = popcount x := by
  induction k generalizing x with
  | zero => rw [Nat.shiftLeft_zero]
  | succ k ih => rw [Nat.shiftLeft_succ_inside, ih, popcount_two_mul]

/-- C4: on the final beat of a packet with remainder
`r = pkt_size % width ≠ 0` and a packed keep encoding, the driver drives
the keep mask with exactly the `r` low-order bits set (`2^r - 1` scaled
form `(1 << r) - 1`) under the default byte order `pkt0_word0 = 1`, and
the mirrored mask (the same `r` bits moved to the top positions,
`(1 << r - 1) << (width - r)`) under the reversed convention
`pkt0_word0 = 0`; decoding either driven value, the monitor's
`mon_tkeep` credits exactly `r` valid bytes (the popcount of the keep
mask) to the accumulated packet size. -/
theorem final_beat_validity_mask (pkt_size width : Nat) (hw : 0 < width)
    (hr : pkt_size % width ≠ 0) :
    drive_tkeep_value width pkt_size true AxisKeepType.packed 1
        = (1 <<< (pkt_size % width)) - 1 ∧
    drive_tkeep_value width pkt_size true AxisKeepType.packed 0
        = ((1 <<< (pkt_size % width)) - 1) <<< (width - pkt_size % width) ∧
    (mon_tkeep width (drive_tkeep_value width pkt_size true AxisKeepType.packed 1)).1
        = pkt_size % width ∧
    (mon_tkeep width (drive_tkeep_value width pkt_size true AxisKeepType.packed 0)).1
        = pkt_size % width := by
  have hrw : pkt_size % width ≤ width := Nat.le_of_lt (Nat.mod_lt _ hw)
  have hd1 : drive_tkeep_value width pkt_size true AxisKeepType.packed 1
      = (1 <<< (pkt_size % width)) - 1 := by
    simp [drive_tkeep_value, hr]
  have hd0 : drive_tkeep_value width pkt_size true AxisKeepType.packed 0
      = ((1 <<< (pkt_size % width)) - 1) <<< (width - pkt_size % width) := by
    simp only [drive_tkeep_value]
    rw [if_pos (by simp), if_pos (by simp [hr])]
    exact reverse_bits_prefix_mask _ _ hrw
  have hpop : popcount ((1 <<< (pkt_size % width)) - 1) = pkt_size % width := by
    rw [Nat.one_shiftLeft, popcount_two_pow_sub_one]
  refine ⟨hd1, hd0, ?_, ?_⟩
  · rw [hd1]
    simpa [mon_tkeep] using hpop
  · rw [hd0]
    simp only [mon_tkeep]
    rw [popcount_shiftLeft]
    exact hpop

theorem final_beat_validity_mask_witness :
    drive_tkeep_value 4 10 true AxisKeepType.packed 1 = 3 ∧
    drive_tkeep_value 4 10 true AxisKeepType.packed 0 = 12 ∧
    (mon_tkeep 4 (drive_tkeep_value 4 10 true AxisKeepType.packed 1)).1 = 2 ∧
    (mon_tkeep 4 (drive_tkeep_value 4 10 true AxisKeepType.packed 0)).1 = 2 := by
  have h := final_beat_validity_mask 10 4 (by decide) (by decide)
  exact ⟨h.1.trans (by decide), h.2.1.trans (by decide),
    h.2.2.1.trans (by decide), h.2.2.2.trans (by decide)⟩

/-- Python `str.lower()` as used on the specifier strings (ASCII only,
matching `Char.toLower`). -/
def py_lower (s : String) : String := ⟨s.data.map Char.toLower⟩

/-- Table of symbolic packet-size ranges from the packaged
`gen_pkt_size` (`src/build/lib/coco_env/packet.py`). -/
def pkt_size_ranges (s : String) : Option (Int × Int) :=
  if s == "random" then some (1, 1500)
  else if s == "one_word" then some (1, 10)
  else if s == "small" then some (10, 100)
  else if s == "medium" then some (100, 500)
  else if s == "long" then some (500, 1500)
  else none

/-- Python argument value for the packaged `gen_pkt_size(pkt_size)`: an
integer, a string, or a value of any other type (named by `tyName`). -/
inductive SizeArg where
  | int (i : Int)
  | str (s : String)
  | other (tyName : String)
deriving DecidableEq, Repr

/-- Embedding of `Packet.gen_pkt_size` from `src/packet.py` (legacy
variant, `gen_pkt_size(self, pkt_size, pkt_size_type)`): an explicit
`pkt_size` argument is assigned unconditionally, with no validation of
sign, zero or type; otherwise `pkt_size_type` is resolved — `'random'`
first redraws the type via `random.choice(['small', 'medium', 'long'])`
(modelled by the `choice` parameter) — and an unrecognized type raises
ValueError.  `randint a b` models `random.randint(a, b)`. -/
def gen_pkt_size_legacy (randint : Int → Int → Int) (choice : String)
    (pkt_size : Option Int) (pkt_size_type : String) : Except PyErr Int :=
  match pkt_size with
  | some v => Except.ok v
  | none =>
    let t := if pkt_size_type == "random" then choice else pkt_size_type
    if t == "one_word" then Except.ok (randint 1 10)
    else if t == "small" then Except.ok (randint 10 100)
    else if t == "medium" then Except.ok (randint 100 500)
    else if t == "long" then Except.ok (randint 500 1500)
    else Except.error PyErr.valueError

/-- Embedding of `Packet.gen_pkt_size` from
`src/build/lib/coco_env/packet.py` (packaged variant,
`gen_pkt_size(self, pkt_size)`).  `None` draws `randint(1, 1500)`; an
integer `<= 0` raises ValueError, a positive one is assigned; a string
of digits assigns `int(s)` but then falls through to
`pkt_size_ranges.get(pkt_size.lower())`, which sits outside the `else`
branch that defines the dict, so Python raises NameError there; a
non-digit string is looked up in the range table, drawing from the range
when found and raising ValueError otherwise; any other argument type
raises TypeError. -/
def gen_pkt_size_build (randint : Int → Int → Int) (pkt_size : Option SizeArg) :
    Except PyErr Int :=
  match pkt_size with
  | none => Except.ok (randint 1 1500)
  | some (SizeArg.int i) =>
      if i ≤ 0 then Except.error PyErr.valueError else Except.ok i
  | some (SizeArg.str s) =>
      if s.length > 0 && s.toList.all Char.isDigit then Except.error PyErr.nameError
      else
        match pkt_size_ranges (py_lower s) with
        | some r => Except.ok (randint r.1 r.2)
        | none => Except.error PyErr.valueError
  | some (SizeArg.other _) => Except.error PyErr.typeError

/-- C8 counterexample: the claim "a string of digits is resolved to a
concrete integer in the documented range, and the call fails with an
invalid-argument condition on a negative size, a zero size, or an
unrecognized symbolic specifier" is false on the code: the legacy
`gen_pkt_size` assigns an explicit negative size without raising any
error, and the packaged variant raises NameError on a digits string
instead of resolving it. -/
theorem gen_pkt_size_claim_counterexample :
    gen_pkt_size_legacy (fun a _ => a) "small" (some (-5)) "random" = Except.ok (-5) ∧
    gen_pkt_size_build (fun a _ => a) (some (SizeArg.str "12"))
      = Except.error PyErr.nameError := by
  constructor
  · rfl
  · have hdig : ("12".length > 0 && "12".toList.all Char.isDigit) = true := by decide
    simp only [gen_pkt_size_build, hdig, eq_self_iff_true, if_true]

/-- C8 amended: in the packaged variant an explicit integer size `<= 0`
raises ValueError and a positive one is accepted; a recognized
non-digit symbolic specifier resolves through `randint` within its
documented range; an unrecognized non-digit string raises ValueError; a
non-int non-string argument raises TypeError; a string of digits raises
NameError (after the assignment) instead of resolving cleanly.  In the
legacy variant any explicit size — zero or negative included — is
assigned without validation, and ValueError is raised only for an
unrecognized `pkt_size_type` when no explicit size is given. -/
theorem gen_pkt_size_behavior (randint : Int → Int → Int)
    (hrand : ∀ a b : Int, a ≤ b → a ≤ randint a b ∧ randint a b ≤ b) :
    (∀ i : Int, i ≤ 0 →
      gen_pkt_size_build randint (some (SizeArg.int i)) = Except.error PyErr.valueError) ∧
    (∀ i : Int, 0 < i →
      gen_pkt_size_build randint (some (SizeArg.int i)) = Except.ok i) ∧
    (∀ s : String, ∀ a b : Int,
      (s.length > 0 && s.toList.all Char.isDigit) = false →
      pkt_size_ranges (py_lower s) = some (a, b) → a ≤ b →
      gen_pkt_size_build randint (some (SizeArg.str s)) = Except.ok (randint a b) ∧
        a ≤ randint a b ∧ randint a b ≤ b) ∧
    (∀ s : String, (s.length > 0 && s.toList.all Char.isDigit) = false →
      pkt_size_ranges (py_lower s) = none →
      gen_pkt_size_build randint (some (SizeArg.str s)) = Except.error PyErr.valueError) ∧
    (∀ ty, gen_pkt_size_build randint (some (SizeArg.other ty))
      = Except.error PyErr.typeError) ∧
    (∀ s : String, (s.length > 0 && s.toList.all Char.isDigit) = true →
      gen_pkt_size_build randint (some (SizeArg.str s)) = Except.error PyErr.nameError) ∧
    (∀ v : Int, ∀ choice ptype,
      gen_pkt_size_legacy randint choice (some v) ptype = Except.ok v) ∧
    (∀ choice ptype, ptype ≠ "random" → ptype ≠ "one_word" → ptype ≠ "small" →
      ptype ≠ "medium" → ptype ≠ "long" →
      gen_pkt_size_legacy randint choice none ptype = Except.error PyErr.valueError) := by
  have c1 : ∀ i : Int, i ≤ 0 →
      gen_pkt_size_build randint (some (SizeArg.int i)) = Except.error PyErr.valueError := by
    intro i hi
    simp [gen_pkt_size_build, hi]
  have c2 : ∀ i : Int, 0 < i →
      gen_pkt_size_build randint (some (SizeArg.int i)) = Except.ok i := by
    intro i hi
    simp [gen_pkt_size_build, Int.not_le.mpr hi]
  have c3 : ∀ s : String, ∀ a b : Int,
      (s.length > 0 && s.toList.all Char.isDigit) = false →
      pkt_size_ranges (py_lower s) = some (a, b) → a ≤ b →
      gen_pkt_size_build randint (some (SizeArg.str s)) = Except.ok (randint a b) ∧
        a ≤ randint a b ∧ randint a b ≤ b := by
    intro s a b hdig hrange hab
    have heq : gen_pkt_size_build randint (some (SizeArg.str s)) = Except.ok (randint a b) := by
      simp only [gen_pkt_size_build, hdig, Bool.false_eq_true, if_false, hrange]
    exact ⟨heq, hrand a b hab⟩
  have c4 : ∀ s : String, (s.length > 0 && s.toList.all Char.isDigit) = false →
      pkt_size_ranges (py_lower s) = none →
      gen_pkt_size_build randint (some (SizeArg.str s)) = Except.error PyErr.valueError := by
    intro s hdig hrange
    simp only [gen_pkt_size_build, hdig, Bool.false_eq_true, if_false, hrange]
  have c5 : ∀ ty, gen_pkt_size_build randint (some (SizeArg.other ty))
      = Except.error PyErr.typeError := fun ty => rfl
  have c6 : ∀ s : String, (s.length > 0 && s.toList.all Char.isDigit) = true →
      gen_pkt_size_build randint (some (SizeArg.str s)) = Except.error PyErr.nameError := by
    intro s hdig
    simp only [gen_pkt_size_build, hdig, eq_self_iff_true, if_true]
  have c7 : ∀ v : Int, ∀ choice ptype,
      gen_pkt_size_legacy randint choice (some v) ptype = Except.ok v :=
    fun v choice ptype => rfl
  have c8 : ∀ choice ptype, ptype ≠ "random" → ptype ≠ "one_word" → ptype ≠ "small" →
      ptype ≠ "medium" → ptype ≠ "long" →
      gen_pkt_size_legacy randint choice none ptype = Except.error PyErr.valueError := by
    intro choice ptype h1 h2 h3 h4 h5
    have b1 : (ptype == "random") = false := beq_eq_false_iff_ne.mpr h1
    have b2 : (ptype == "one_word") = false := beq_eq_false_iff_ne.mpr h2
    have b3 : (ptype == "small") = false := beq_eq_false_iff_ne.mpr h3
    have b4 : (ptype == "medium") = false := beq_eq_false_iff_ne.mpr h4
    have b5 : (ptype == "long") = false := beq_eq_false_iff_ne.mpr h5
    simp [gen_pkt_size_legacy, b1, b2, b3, b4, b5]
  exact ⟨c1, c2, c3, c4, c5, c6, c7, c8⟩

theorem gen_pkt_size_behavior_witness :
    gen_pkt_size_build (fun a _ => a) (some (SizeArg.int (-5)))
      = Except.error PyErr.valueError ∧
    gen_pkt_size_build (fun a _ => a) (some (SizeArg.str "small")) = Except.ok 10 ∧
    gen_pkt_size_legacy (fun a _ => a) "small" none "bogus"
      = Except.error PyErr.valueError := by
  have h := gen_pkt_size_behavior (fun a _ => a)
    (fun a b hab => ⟨Int.le_refl a, hab⟩)
  refine ⟨h.1 (-5) (by decide), ?_, ?_⟩
  · exact (h.2.2.1 "small" 10 100 (by decide) (by decide) (by decide)).1
  · exact h.2.2.2.2.2.2.2 "small" "bogus" (by decide) (by decide) (by decide)
      (by decide) (by decide)

/-- Python argument for the `positions` parameter of `Packet.corrupt_pkt`:
a list, an int, or a value of any other type (named by `tyName`). -/
inductive PosArg where
  | list (l : List Nat)
  | int (n : Nat)
  | other (tyName : String)
deriving DecidableEq, Repr

/-- Embedding of the argument dispatch of `Packet.corrupt_pkt`
(`src/packet.py`; the packaged copy in `src/build/lib/coco_env/packet.py`
is identical up to parameter names): a list argument is used directly as
the corruption positions, an int argument `n` is replaced by
`random.sample(range(0, len(self.data)), n)` (modelled by the `sample`
parameter: `n` positions drawn without replacement), and any other type
reaches `raise TypeError(f"Expected integer or list datatypes, but got
...")` whose f-string evaluates `type(variable).__name__` — `variable`
is an undefined name, so Python raises NameError while building the
message, before any TypeError object exists. -/
def corrupt_pkt_positions (sample : Nat → List Nat) (positions : PosArg) :
    Except PyErr (List Nat) :=
  match positions with
  | PosArg.list l => Except.ok l
  | PosArg.int n => Except.ok (sample n)
  | PosArg.other _ => Except.error PyErr.nameError

/-- C9: a list argument passes through as the explicit positions and an
int argument becomes a sampled-without-replacement position set, but at
the failing input — a `positions` argument that is neither int nor
list — `corrupt_pkt` raises NameError (the TypeError message f-string
references the undefined name `variable`), not the TypeError naming the
offending type that the claim and the code's own `raise TypeError`
intend. -/
theorem corrupt_pkt_positions_dispatch (sample : Nat → List Nat) :
    (∀ l, corrupt_pkt_positions sample (PosArg.list l) = Except.ok l) ∧
    (∀ n, corrupt_pkt_positions sample (PosArg.int n) = Except.ok (sample n)) ∧
    (∀ ty, corrupt_pkt_positions sample (PosArg.other ty) = Except.error PyErr.nameError ∧
      corrupt_pkt_positions sample (PosArg.other ty) ≠ Except.error PyErr.typeError) := by
  refine ⟨fun l => rfl, fun n => rfl, fun ty => ⟨rfl, ?_⟩⟩
  intro hcontra
  rw [corrupt_pkt_positions] at hcontra
  injection hcontra with herr
  exact absurd herr (by decide)

/-- Loop of `Packet.get_word_list` from `src/packet.py`: iterates
`i in range(self.pkt_size)`, ORs `self.data[i] << (i % word_size)*8`
into the running `word`, and appends/resets the word at a chunk boundary
(`i % word_size == word_size-1`) or at the end of the data
(`i == len(self.data)-1`).  The loop bound `pkt_size` equals
`len(self.data)` (the packet invariant the method relies on to index
`self.data[i]`). -/
def get_word_list_go (data : List Nat) (word_size : Nat) (i word : Nat)
    (word_list : List Nat) : List Nat :=
  if h : i < data.length then
    if i % word_size == word_size - 1 || i == data.length - 1 then
      get_word_list_go data word_size (i + 1) 0
        (word_list ++ [word ||| (data[i] <<< ((i % word_size) * 8))])
    else
      get_word_list_go data word_size (i + 1)
        (word ||| (data[i] <<< ((i % word_size) * 8))) word_list
  else word_list
termination_by data.length - i

/-- Embedding of `Packet.get_word_list`: run the loop from index 0 with
an empty accumulator word and output list. -/
def get_word_list (data : List Nat) (word_size : Nat) : List Nat :=
  get_word_list_go data word_size 0 0 []

/-- Little-endian packing of a chunk of bytes into one word by ORing
byte-shifted values, the closed form of the `get_word_list` word
accumulator. -/
def packLE : List Nat → Nat
  | [] => 0
  | b :: bs => b ||| (packLE bs <<< 8)

/-- Word list of a byte list: one `packLE`-packed word per `word_size`
chunk (specification-side closed form of `get_word_list`). -/
def chunkWords (word_size : Nat) : List Nat → List Nat
  | [] => []
  | b :: bs => packLE ((b :: bs).take word_size) :: chunkWords word_size (bs.drop (word_size - 1))
termination_by l => l.length
decreasing_by simp [List.length_drop]; omega

theorem chunkWords_cons (W : Nat) (hW : 0 < W) (b : Nat) (bs : List Nat) :
    chunkWords W (b :: bs) = packLE ((b :: bs).take W) :: chunkWords W ((b :: bs).drop W) := by
  have hdrop : (b :: bs).drop W = bs.drop (W - 1) := by
    cases W with
    | zero => omega
    | succ w => simp
  simp only [chunkWords]
  rw [hdrop]

theorem packLE_singleton (x : Nat) : packLE [x] = x := by
  simp [packLE]

theorem or_shiftLeft (a b k : Nat) : (a ||| b) <<< k = (a <<< k) ||| (b <<< k) := by
  apply Nat.eq_of_testBit_eq
  intro j
  simp [Nat.testBit_shiftLeft, Nat.testBit_or, Bool.and_or_distrib_left]

theorem or_shiftRight (a b k : Nat) : (a ||| b) >>> k = (a >>> k) ||| (b >>> k) := by
  apply Nat.eq_of_testBit_eq
  intro j
  simp [Nat.testBit_shiftRight, Nat.testBit_or]

theorem or_and_distrib (a b c : Nat) : (a ||| b) &&& c = (a &&& c) ||| (b &&& c) := by
  apply Nat.eq_of_testBit_eq
  intro j
  simp [Nat.testBit_and, Nat.testBit_or, Bool.and_or_distrib_right]

theorem and_255_eq_mod (x : Nat) : x &&& 255 = x % 256 :=
  Nat.and_pow_two_sub_one_eq_mod x 8

theorem succ_mod_eq_zero (i W : Nat) (h : i % W = W - 1) (hW : 0 < W) :
    (i + 1) % W = 0 := by
  have hdm := Nat.div_add_mod i W
  have h2 : i + 1 = W * (i / W + 1) := by rw [Nat.mul_add, Nat.mul_one]; omega
  rw [h2, Nat.mul_mod_right]

theorem succ_mod_eq_succ (i W : Nat) (h : i % W + 1 < W) : (i + 1) % W = i % W + 1 := by
  have hdm := Nat.div_add_mod i W
  have h2 : i + 1 = W * (i / W) + (i % W + 1) := by omega
  rw [h2, Nat.mul_add_mod]
  exact Nat.mod_eq_of_lt h

theorem get_word_list_go_eq (data : List Nat) (W : Nat) (hW : 0 < W) :
    ∀ k i word acc, data.length - i = k → i < data.length →
      get_word_list_go data W i word acc
        = acc ++ (word ||| (packLE ((data.drop i).take (W - i % W)) <<< ((i % W) * 8)))
            :: chunkWords W (data.drop (i + (W - i % W))) := by
  intro k
  induction k with
  | zero =>
    intro i word acc hk hin
    omega
  | succ k ih =>
    intro i word acc hk hin
    have hiw : i % W < W := Nat.mod_lt _ hW
    rw [get_word_list_go, dif_pos hin]
    by_cases hlast : (i % W == W - 1 || i == data.length - 1) = true
    · rw [if_pos hlast]
      simp only [Bool.or_eq_true, beq_iff_eq] at hlast
      by_cases hend : i + 1 < data.length
      · have hmodW : i % W = W - 1 := by
          rcases hlast with h | h
          · exact h
          · omega
        have hrem : W - i % W = 1 := by omega
        have hmod0 : (i + 1) % W = 0 := succ_mod_eq_zero i W hmodW hW
        rw [ih (i + 1) 0 (acc ++ [word ||| data[i] <<< (i % W * 8)]) (by omega) hend]
        rw [hmod0]
        simp only [Nat.sub_zero, Nat.zero_mul, Nat.shiftLeft_zero, Nat.zero_or]
        have hcons := List.drop_eq_getElem_cons hend
        have hsplit := chunkWords_cons W hW (data[i + 1]) (data.drop (i + 1 + 1))
        rw [← hcons, List.drop_drop] at hsplit
        have hT : (data.drop i).take 1 = [data[i]] := by
          rw [List.drop_eq_getElem_cons hin]
          rfl
        rw [hrem, hT, packLE_singleton, hsplit]
        simp [List.append_assoc]
      · have hend2 : i + 1 = data.length := by omega
        rw [get_word_list_go, dif_neg (by omega)]
        have hT : (data.drop i).take (W - i % W) = [data[i]] := by
          have h1 : W - i % W = (W - i % W - 1) + 1 := by omega
          have hnil : data.drop (i + 1) = [] := List.drop_eq_nil_of_le (by omega)
          rw [h1, List.drop_eq_getElem_cons hin, hnil, List.take_succ_cons, List.take_nil]
        have hD : data.drop (i + (W - i % W)) = [] := List.drop_eq_nil_of_le (by omega)
        rw [hT, packLE_singleton, hD]
        simp [chunkWords]
    · rw [if_neg hlast]
      simp only [Bool.or_eq_true, beq_iff_eq, not_or] at hlast
      have hend : i + 1 < data.length := by omega
      have hm1 : i % W + 1 < W := by omega
      have hmod : (i + 1) % W = i % W + 1 := succ_mod_eq_succ i W hm1
      rw [ih (i + 1) (word ||| data[i] <<< (i % W * 8)) acc (by omega) hend]
      rw [hmod]
      have hdropeq : i + 1 + (W - (i % W + 1)) = i + (W - i % W) := by omega
      rw [hdropeq]
      have hT : (data.drop i).take (W - i % W)
          = data[i] :: (data.drop (i + 1)).take (W - (i % W + 1)) := by
        have h1 : W - i % W = (W - (i % W + 1)) + 1 := by omega
        rw [h1, List.drop_eq_getElem_cons hin, List.take_succ_cons]
      have hword : (word ||| data[i] <<< (i % W * 8))
            ||| packLE ((data.drop (i + 1)).take (W - (i % W + 1))) <<< ((i % W + 1) * 8)
          = word ||| packLE ((data.drop i).take (W - i % W)) <<< (i % W * 8) := by
        rw [hT, packLE]
        rw [or_shiftLeft, ← Nat.shiftLeft_add, Nat.or_assoc]
        have h8 : 8 + i % W * 8 = (i % W + 1) * 8 := by ring
        rw [h8]
      rw [hword]

/-- `get_word_list` equals the chunk-wise little-endian packing of the
byte list: one word per `word_size`-byte chunk, final partial chunk
included. -/
theorem get_word_list_eq_chunkWords (data : List Nat) (W : Nat) (hW : 0 < W) :
    get_word_list data W = chunkWords W data := by
  cases data with
  | nil =>
    rw [get_word_list, get_word_list_go, dif_neg (by simp)]
    simp [chunkWords]
  | cons b bs =>
    rw [get_word_list, get_word_list_go_eq (b :: bs) W hW (b :: bs).length 0 0 []
      rfl (by simp)]
    rw [chunkWords_cons W hW]
    simp [Nat.sub_zero]

theorem packLE_byte : ∀ (chunk : List Nat), (∀ b ∈ chunk, b < 256) →
    ∀ i, (packLE chunk >>> (i * 8)) &&& 0xFF = chunk.getD i 0 := by
  intro chunk
  induction chunk with
  | nil =>
    intro _ i
    simp [packLE]
  | cons b bs ih =>
    intro hb i
    have hb0 : b < 256 := hb b (List.mem_cons_self _ _)
    cases i with
    | zero =>
      rw [packLE]
      rw [Nat.zero_mul, Nat.shiftRight_zero, or_and_distrib, and_255_eq_mod, and_255_eq_mod]
      have h1 : b % 256 = b := Nat.mod_eq_of_lt hb0
      have h2 : (packLE bs <<< 8) % 256 = 0 := by
        rw [Nat.shiftLeft_eq, show (2 : Nat) ^ 8 = 256 from rfl, Nat.mul_mod_left]
      rw [h1, h2, Nat.or_zero]
      rfl
    | succ i =>
      rw [packLE, or_shiftRight]
      have h1 : b >>> ((i + 1) * 8) = 0 := by
        rw [Nat.shiftRight_eq_div_pow]
        apply Nat.div_eq_of_lt
        calc b < 256 := hb0
          _ = 2 ^ 8 := rfl
          _ ≤ 2 ^ ((i + 1) * 8) := Nat.pow_le_pow_right (by omega) (by omega)
      have h2 : (packLE bs <<< 8) >>> ((i + 1) * 8) = packLE bs >>> (i * 8) := by
        rw [Nat.shiftLeft_eq, Nat.shiftRight_eq_div_pow, Nat.shiftRight_eq_div_pow]
        have hsplit : (i + 1) * 8 = 8 + i * 8 := by ring
        rw [hsplit, Nat.pow_add, Nat.mul_comm (packLE bs) (2 ^ 8)]
        exact Nat.mul_div_mul_left _ _ (by omega)
      rw [h1, h2, Nat.zero_or]
      have := ih (fun x hx => hb x (List.mem_cons_of_mem _ hx)) i
      rw [this]
      rfl

theorem getD_map_range : ∀ (W : Nat) (chunk : List Nat), chunk.length ≤ W →
    (List.range W).map (fun i => chunk.getD i 0)
      = chunk ++ List.replicate (W - chunk.length) 0 := by
  intro W
  induction W with
  | zero =>
    intro chunk hlen
    have hnil : chunk = [] := List.eq_nil_of_length_eq_zero (by omega)
    subst hnil
    rfl
  | succ W ih =>
    intro chunk hlen
    rw [List.range_succ_eq_map, List.map_cons, List.map_map]
    cases chunk with
    | nil =>
      have hcomp : ((fun i => ([] : List Nat).getD i 0) ∘ Nat.succ) = (fun _ => 0) := by
        funext i
        simp
      rw [hcomp, List.map_const', List.length_range]
      simp [List.replicate_succ]
    | cons c cs =>
      have hcomp : ((fun i => (c :: cs).getD i 0) ∘ Nat.succ) = (fun i => cs.getD i 0) := by
        funext i
        simp
      rw [hcomp, ih cs (by simpa using hlen)]
      simp [List.replicate_succ]

theorem wordBytes_packLE (W : Nat) (chunk : List Nat) (hb : ∀ b ∈ chunk, b < 256)
    (hlen : chunk.length ≤ W) :
    wordBytes (packLE chunk) W = chunk ++ List.replicate (W - chunk.length) 0 := by
  rw [wordBytes, List.map_congr_left (fun i _ => packLE_byte chunk hb i)]
  exact getD_map_range W chunk hlen

theorem bytesOfWords_chunkWords (W : Nat) (hW : 0 < W) :
    ∀ n, ∀ B : List Nat, B.length ≤ n → (∀ b ∈ B, b < 256) →
      (bytesOfWords W (chunkWords W B)).take B.length = B := by
  intro n
  induction n with
  | zero =>
    intro B hlen hb
    have hnil : B = [] := List.eq_nil_of_length_eq_zero (by omega)
    subst hnil
    simp [chunkWords, bytesOfWords]
  | succ n ih =>
    intro B hlen hb
    cases B with
    | nil => simp [chunkWords, bytesOfWords]
    | cons b bs =>
      rw [chunkWords_cons W hW, bytesOfWords]
      rcases Nat.le_total W (b :: bs).length with hWlen | hWlen
      · have hchunklen : ((b :: bs).take W).length = W := by
          rw [List.length_take]
          omega
        have hchunk : wordBytes (packLE ((b :: bs).take W)) W = (b :: bs).take W := by
          rw [wordBytes_packLE W _ (fun x hx => hb x (List.mem_of_mem_take hx))
            (by rw [hchunklen])]
          rw [hchunklen, Nat.sub_self]
          simp
        rw [hchunk, List.take_append_eq_append_take, hchunklen]
        have htk : ((b :: bs).take W).take (b :: bs).length = (b :: bs).take W := by
          apply List.take_of_length_le
          rw [hchunklen]
          exact hWlen
        rw [htk]
        have hrest := ih ((b :: bs).drop W)
          (by rw [List.length_drop]; omega)
          (fun x hx => hb x (List.mem_of_mem_drop hx))
        rw [List.length_drop] at hrest
        rw [hrest, List.take_append_drop]
      · have htake : (b :: bs).take W = b :: bs := List.take_of_length_le hWlen
        have hdrop : (b :: bs).drop W = [] := List.drop_eq_nil_of_le hWlen
        rw [htake, hdrop]
        have hchunk : wordBytes (packLE (b :: bs)) W
            = (b :: bs) ++ List.replicate (W - (b :: bs).length) 0 :=
          wordBytes_packLE W _ hb hWlen
        rw [hchunk]
        simp only [chunkWords, bytesOfWords, List.append_nil]
        rw [List.take_append_eq_append_take, List.take_of_length_le (Nat.le_refl _),
          Nat.sub_self]
        simp

/-- C1: round-trip of beat slicing and reconstruction — for every byte
list `B` (each byte in `[0, 255]`) and every lane width `W >= 1`, packing
`B` into lane words with `Packet.get_word_list` and reconstructing with
`Packet.words_to_bytes(words, len(B), W)` yields a packet whose data is
exactly `B` and whose `pkt_size` is `len(B)`. -/
theorem get_word_list_words_to_bytes_roundtrip (B : List Nat) (W : Nat) (hW : 0 < W)
    (hB : ∀ b ∈ B, b < 256) :
    words_to_bytes (get_word_list B W) B.length W = ⟨B, B.length⟩ := by
  rw [get_word_list_eq_chunkWords B W hW]
  have hdata := words_to_bytes_data (chunkWords W B) B.length W
  have htake := bytesOfWords_chunkWords W hW B.length B (Nat.le_refl _) hB
  have hrepr : words_to_bytes (chunkWords W B) B.length W
      = ⟨(bytesOfWords W (chunkWords W B)).take B.length, B.length⟩ := by
    rw [← hdata]
    rfl
  rw [hrepr, htake]

theorem get_word_list_words_to_bytes_roundtrip_witness :
    words_to_bytes (get_word_list [1, 2, 3, 4, 5] 2) 5 2 = ⟨[1, 2, 3, 4, 5], 5⟩ := by
  have h := get_word_list_words_to_bytes_roundtrip [1, 2, 3, 4, 5] 2 (by decide) (by decide)
  simpa using h
